import Mathlib

/-!
Verification of the diff-parsing / sanitization core of the
`bitbucket-pr-reviewer-mcp` repository.

The development shallowly embeds, over `List Char`:
  * the credential sanitizer (`src/services/sanitization_service.py`),
    including an executable model of the Python `re` constructs that the
    shipped pattern list uses (literals, character classes, greedy
    quantifiers, flat capture groups; no alternation or anchors occur in
    those patterns),
  * the unified diff parser (`src/services/diff_parser_service.py`),
    whose two anchored header regexes are embedded as direct,
    backtracking-faithful matching functions,
  * the feedback-to-location correlator of
    `src/mcp_server/tools/integrated_review_tool.py`.

Character classes are ASCII approximations of Python's Unicode-aware
classes; every concrete input considered is ASCII.
-/

set_option maxRecDepth 100000
set_option maxHeartbeats 2000000

namespace BB

/-! ### Character classes (ASCII approximations of the Python classes) -/

/-- Python `\w` (ASCII fragment). -/
def isWordChar (c : Char) : Bool :=
  c.isAlphanum || c = '_'

/-- Python `\s` (ASCII fragment: space, tab, newline, CR, FF, VT). -/
def isSpaceChar (c : Char) : Bool :=
  c = ' ' || c = '\t' || c = '\n' || c = '\r' || c = '\x0b' || c = '\x0c'

/-- Python `[^'\"]`: any character other than a quote (newline included). -/
def isNotQuote (c : Char) : Bool :=
  !(c = '\'' || c = '"')

/-- Python `[^:]`. -/
def isNotColon (c : Char) : Bool := !(c = ':')

/-- Python `[^@]`. -/
def isNotAt (c : Char) : Bool := !(c = '@')

/-- Python `[a-zA-Z0-9]`. -/
def isAlnum (c : Char) : Bool := c.isAlphanum

/-- Python `[a-zA-Z0-9-]`. -/
def isAlnumDash (c : Char) : Bool := c.isAlphanum || c = '-'

/-- Python `[a-zA-Z0-9_-]`. -/
def isJwtChar (c : Char) : Bool := c.isAlphanum || c = '_' || c = '-'

/-- Python `[0-9A-Z]`. -/
def isUpperDigit (c : Char) : Bool := c.isUpper || c.isDigit

/-- Python `[a-zA-Z0-9+/]`. -/
def isBase64Char (c : Char) : Bool := c.isAlphanum || c = '+' || c = '/'

/-- Python `[a-f0-9]`. -/
def isHexLower (c : Char) : Bool := c.isDigit || ('a' ≤ c && c ≤ 'f')

/-- Python `[:=]`. -/
def isColonEq (c : Char) : Bool := c = ':' || c = '='

/-- Python `['\"]`. -/
def isQuote (c : Char) : Bool := c = '\'' || c = '"'

/-! ### Pattern atoms and the backtracking matcher

Every shipped sanitization pattern is a flat concatenation of string
literals and quantified single-character classes; capture groups are
contiguous sub-concatenations.  Greedy quantifiers with backtracking
reproduce CPython's `re` behaviour on this fragment. -/

/-- One element of a pattern: a literal, a single class character, or a
greedy quantifier over a class. -/
inductive Atom where
  /-- a literal string -/
  | lit (l : List Char)
  /-- exactly one character of the class -/
  | one (p : Char → Bool)
  /-- greedy `*` over a class -/
  | star (p : Char → Bool)
  /-- greedy `+` over a class -/
  | more (p : Char → Bool)
  /-- greedy `{n,}` over a class -/
  | atLeast (n : Nat) (p : Char → Bool)
  /-- exact `{n}` over a class -/
  | exactly (n : Nat) (p : Char → Bool)

/-- Length of the maximal prefix of `s` whose characters satisfy `p`. -/
def maxRun (p : Char → Bool) : List Char → Nat
  | [] => 0
  | c :: s => if p c then maxRun p s + 1 else 0

/-- Backtracking helper: try `f j`, `f (j-1)`, …, `count + 1` candidates
in all, returning the first success (greedy: largest `j` first). -/
def tryDown (f : Nat → Option β) : Nat → Nat → Option β
  | 0, j => f j
  | c + 1, j =>
    match f j with
    | some b => some b
    | none => tryDown f c (j - 1)

/-- Match a sequence of atoms at the head of `s`, then run the
continuation `k` on the remainder; returns the number of characters the
atoms consumed together with the continuation's result.  Greedy
quantifiers backtrack from the longest candidate down, exactly as
CPython's engine does on alternation-free patterns. -/
def matchSeq : List Atom → (List Char → Option α) → List Char → Option (Nat × α)
  | [], k, s => (k s).map (fun a => (0, a))
  | .lit l :: as, k, s =>
    if l.isPrefixOf s then
      (matchSeq as k (s.drop l.length)).map (fun x => (l.length + x.1, x.2))
    else none
  | .one p :: as, k, s =>
    match s with
    | [] => none
    | c :: s' =>
      if p c then (matchSeq as k s').map (fun x => (1 + x.1, x.2)) else none
  | .star p :: as, k, s =>
    let m := maxRun p s
    tryDown (fun j => (matchSeq as k (s.drop j)).map (fun x => (j + x.1, x.2))) m m
  | .more p :: as, k, s =>
    let m := maxRun p s
    if m = 0 then none
    else tryDown (fun j => (matchSeq as k (s.drop j)).map (fun x => (j + x.1, x.2))) (m - 1) m
  | .atLeast n p :: as, k, s =>
    let m := maxRun p s
    if m < n then none
    else tryDown (fun j => (matchSeq as k (s.drop j)).map (fun x => (j + x.1, x.2))) (m - n) m
  | .exactly n p :: as, k, s =>
    if n ≤ maxRun p s then
      (matchSeq as k (s.drop n)).map (fun x => (n + x.1, x.2))
    else none

/-- A sanitization rule: either one capture group covering the whole
pattern (`pattern.groups == 1`), or three contiguous capture groups
(`pattern.groups == 3`).  All shipped patterns have one of these shapes. -/
inductive Rule where
  | arity1 (g : List Atom)
  | arity3 (g1 g2 g3 : List Atom)

/-- Match a rule at the head of `s`; returns the lengths consumed by the
(one or three) capture groups. -/
def matchRule : Rule → List Char → Option (Nat × Nat × Nat)
  | .arity1 g, s =>
    (matchSeq g (fun _ => some ()) s).map (fun x => (x.1, 0, 0))
  | .arity3 g1 g2 g3, s =>
    (matchSeq g1 (fun s1 =>
      matchSeq g2 (fun s2 =>
        matchSeq g3 (fun _ => some ()) s2) s1) s).map
      (fun x => (x.1, x.2.1, x.2.2.1))

/-- Leftmost match of a rule in `s`: the first start offset at which the
rule matches, with the group lengths there. -/
def findMatch (r : Rule) : List Char → Option (Nat × Nat × Nat × Nat)
  | [] => (matchRule r []).map (fun g => (0, g))
  | c :: s =>
    match matchRule r (c :: s) with
    | some g => some (0, g)
    | none => (findMatch r s).map (fun x => (x.1 + 1, x.2))

/-- `[REDACTED]`, the fixed redaction token. -/
def redactedTok : List Char := "[REDACTED]".data

/-- Total length of a match from its group lengths. -/
def matchLen (r : Rule) (g : Nat × Nat × Nat) : Nat :=
  match r with
  | .arity1 _ => g.1
  | .arity3 _ _ _ => g.1 + g.2.1 + g.2.2

/-- Replacement text for one match: `\1[REDACTED]\3` for arity-3 rules,
`[REDACTED]` for arity-1 rules. -/
def replacementFor (r : Rule) (s : List Char) (g : Nat × Nat × Nat) : List Char :=
  match r with
  | .arity1 _ => redactedTok
  | .arity3 _ _ _ =>
    s.take g.1 ++ redactedTok ++ ((s.drop (g.1 + g.2.1)).take g.2.2)

/-- `re.sub` for one rule, fuelled (the fuel is set to more than the
input length at the top level; each step consumes at least one input
character).  Mirrors CPython: leftmost match, replace, resume scanning
at the match end (advancing one extra copied character after an empty
match). -/
def subF (r : Rule) : Nat → List Char → List Char
  | 0, s => s
  | fuel + 1, s =>
    match findMatch r s with
    | none => s
    | some (i, g) =>
      let len := matchLen r g
      let t := s.drop i
      s.take i ++ replacementFor r t g ++
        (if len = 0 then t.take 1 else []) ++
        subF r fuel (s.drop (i + max len 1))

/-- `re.sub` of one rule over a character list. -/
def subRule (r : Rule) (s : List Char) : List Char :=
  subF r (s.length + 1) s

/-! ### The shipped sanitization pattern list (`config/settings.py`) -/

/-- `(<kw>\s*[:=]\s*['\"])([^'\"]*)(['\"])` -/
def kwQuoteRule (kw : String) : Rule :=
  .arity3 [.lit kw.data, .star isSpaceChar, .one isColonEq, .star isSpaceChar, .one isQuote]
    [.star isNotQuote]
    [.one isQuote]

/-- `(export\s+\w*<KW>\w*\s*=\s*['\"])([^'\"]*)(['\"])` -/
def exportVarRule (kw : String) : Rule :=
  .arity3 [.lit "export".data, .more isSpaceChar, .star isWordChar, .lit kw.data,
      .star isWordChar, .star isSpaceChar, .lit "=".data, .star isSpaceChar, .one isQuote]
    [.star isNotQuote]
    [.one isQuote]

/-- `(\w*<KW>\w*\s*=\s*['\"])([^'\"]*)(['\"])` -/
def bareVarRule (kw : String) : Rule :=
  .arity3 [.star isWordChar, .lit kw.data, .star isWordChar, .star isSpaceChar,
      .lit "=".data, .star isSpaceChar, .one isQuote]
    [.star isNotQuote]
    [.one isQuote]

/-- `(<pre>[<cls>]{n,})` -/
def tokenRule (pre : String) (n : Nat) (p : Char → Bool) : Rule :=
  .arity1 [.lit pre.data, .atLeast n p]

/-- `(<scheme>://[^:]+:)([^@]+)(@)` -/
def dbRule (scheme : String) : Rule :=
  .arity3 [.lit (scheme ++ "://").data, .more isNotColon, .lit ":".data]
    [.more isNotAt]
    [.lit "@".data]

/-- The ordered rule list of `load_settings` in `config/settings.py`. -/
def sanitizationRules : List Rule :=
  [ kwQuoteRule "password", kwQuoteRule "api_key", kwQuoteRule "token",
    kwQuoteRule "secret", kwQuoteRule "key", kwQuoteRule "auth",
    kwQuoteRule "pass", kwQuoteRule "pwd",
    exportVarRule "PASSWORD", exportVarRule "SECRET", exportVarRule "KEY",
    exportVarRule "TOKEN", exportVarRule "AUTH",
    bareVarRule "PASSWORD", bareVarRule "SECRET", bareVarRule "KEY",
    bareVarRule "TOKEN", bareVarRule "AUTH",
    tokenRule "sk-" 20 isAlnum, tokenRule "sk-proj-" 20 isAlnum,
    tokenRule "pk_" 20 isAlnum, tokenRule "pk_test_" 20 isAlnum,
    .arity1 [.lit "xoxb-".data, .more isAlnumDash],
    .arity1 [.lit "xoxp-".data, .more isAlnumDash],
    tokenRule "ghp_" 36 isAlnum, tokenRule "gho_" 36 isAlnum,
    tokenRule "ghu_" 36 isAlnum, tokenRule "ghs_" 36 isAlnum,
    tokenRule "ghr_" 36 isAlnum,
    dbRule "mongodb", dbRule "postgres", dbRule "mysql", dbRule "redis",
    .arity1 [.lit "AKIA".data, .exactly 16 isUpperDigit],
    .arity1 [.lit "eyJ".data, .more isJwtChar, .lit ".".data, .more isJwtChar,
      .lit ".".data, .more isJwtChar],
    .arity3 [.lit "password".data, .star isSpaceChar, .one isColonEq, .star isSpaceChar,
        .one isQuote] [.atLeast 20 isBase64Char] [.one isQuote],
    .arity3 [.lit "secret".data, .star isSpaceChar, .one isColonEq, .star isSpaceChar,
        .one isQuote] [.atLeast 32 isHexLower] [.one isQuote],
    .arity3 [.lit "key".data, .star isSpaceChar, .one isColonEq, .star isSpaceChar,
        .one isQuote] [.atLeast 8 (fun c => c.isAlphanum || c = '_')] [.one isQuote] ]

/-- `SanitizationService.sanitize_diff`: apply every rule, in order, over
the cumulative result. -/
def sanitizeList (rules : List Rule) (s : List Char) : List Char :=
  match rules with
  | [] => s
  | r :: rs => sanitizeList rs (subRule r s)

/-- `sanitize_diff` on strings. -/
def sanitize_diff (diff : String) : String :=
  String.mk (sanitizeList sanitizationRules diff.data)

/-- One rule's `findall` contribution in `detect_credentials`: group 2
for arity-3 rules, the whole match for arity-1 rules; every rule scans
the original, unmodified text. -/
def findAllF (r : Rule) : Nat → List Char → List (List Char)
  | 0, _ => []
  | fuel + 1, s =>
    match findMatch r s with
    | none => []
    | some (i, g) =>
      let len := matchLen r g
      let t := s.drop i
      (match r with
       | .arity1 _ => t.take g.1
       | .arity3 _ _ _ => (t.drop g.1).take g.2.1) ::
        findAllF r fuel (s.drop (i + max len 1))

/-- `SanitizationService.detect_credentials`. -/
def detect_credentials (text : String) : List String :=
  (sanitizationRules.flatMap (fun r => findAllF r (text.data.length + 1) text.data)).map
    String.mk

/-! ### The unified diff parser (`diff_parser_service.py`)

The two file-header regexes and the hunk-header regex are anchored
(`re.match`) and are only ever applied to the pieces of
`diff.split('\n')`, which contain no newline; they are embedded as
direct matching functions that reproduce the regex engine's
backtracking order on such lines. -/

/-- Python `str.split('\n')`: the list of newline-separated pieces
(one more piece than there are newlines). -/
def splitLines : List Char → List (List Char)
  | [] => [[]]
  | c :: rest =>
    match splitLines rest with
    | [] => [[c]]
    | l :: ls => if c = '\n' then [] :: l :: ls else (c :: l) :: ls

/-- `maxRun` for decimal digits. -/
def digitRun (s : List Char) : Nat := maxRun (fun c => c.isDigit) s

/-- Numeric value of a digit list (`int()` on the captured group). -/
def digitsToNat (ds : List Char) : Nat :=
  ds.foldl (fun a c => a * 10 + (c.toNat - 48)) 0

/-- `(?:,\d+)?` followed by nothing: consume `,<digits>` when present
(the regex alternative of leaving the option empty fails identically,
since the character after the option must then be a space). -/
def dropCommaCount (s : List Char) : List Char :=
  match s with
  | ',' :: rest => if digitRun rest ≠ 0 then rest.drop (digitRun rest) else s
  | _ => s

/-- `^@@ -(\d+)(?:,\d+)? \+(\d+)(?:,\d+)? @@` (a prefix match, as
`re.match` allows trailing text): returns the two captured start
lines. -/
def hunkHeader (l : List Char) : Option (Nat × Nat) :=
  if "@@ -".data.isPrefixOf l then
    let s1 := l.drop 4
    let n1 := digitRun s1
    if n1 = 0 then none
    else
      let r1 := dropCommaCount (s1.drop n1)
      if " +".data.isPrefixOf r1 then
        let s2 := r1.drop 2
        let n2 := digitRun s2
        if n2 = 0 then none
        else
          let r2 := dropCommaCount (s2.drop n2)
          if " @@".data.isPrefixOf r2 then
            some (digitsToNat (s1.take n1), digitsToNat (s2.take n2))
          else none
      else none
  else none

/-- Does the line start with the given character (`^\+`, `^-`,
`startswith(' ')`)? -/
def startsWithChar (c : Char) : List Char → Bool
  | [] => false
  | c' :: _ => c' = c

/-- The ` b/` separator of the strict header grammar. -/
def sepPlain : List Char := " b/".data

/-- The ` b[REDACTED]/` separator tolerated by the sanitized grammar. -/
def sepRed : List Char := (" b".data ++ redactedTok) ++ "/".data

/-- Search for the non-greedy split of `(.+?) b(?:\[REDACTED\])?/(.+?)$`:
the shortest nonempty first group followed by the separator (the
`[REDACTED]` alternative has priority when `tol` is set; at any given
split at most one alternative can apply) and a nonempty remainder.
`i` starts at 1 and the fuel bounds the candidates. -/
def headerSplitGo (tol : Bool) (r2 : List Char) : Nat → Nat → Option (List Char × List Char)
  | 0, _ => none
  | fuel + 1, i =>
    let rest := r2.drop i
    if tol && sepRed.isPrefixOf rest && !(rest.drop sepRed.length).isEmpty then
      some (r2.take i, rest.drop sepRed.length)
    else if sepPlain.isPrefixOf rest && !(rest.drop sepPlain.length).isEmpty then
      some (r2.take i, rest.drop sepPlain.length)
    else headerSplitGo tol r2 fuel (i + 1)

/-- Split search over all candidate first-group lengths. -/
def headerSplit (tol : Bool) (r2 : List Char) : Option (List Char × List Char) :=
  headerSplitGo tol r2 r2.length 1

/-- `^diff --git a(?:\[REDACTED\])?/(.+?) b(?:\[REDACTED\])?/(.+?)$`,
the tolerant file-header grammar compiled in `DiffParserService.__init__`.
After `a`, the `[REDACTED]` alternative applies exactly when the text
continues with that token (the empty alternative then needs `/` at `[`,
which cannot match, and vice versa). -/
def fileHeaderTolerant (l : List Char) : Option (List Char × List Char) :=
  if "diff --git a".data.isPrefixOf l then
    let r0 := l.drop 12
    if redactedTok.isPrefixOf r0 then
      let r1 := r0.drop redactedTok.length
      if startsWithChar '/' r1 then headerSplit true r1.tail else none
    else
      if startsWithChar '/' r0 then headerSplit true r0.tail else none
  else none

/-- `^diff --git a/(.+?) b/(.+?)$`, the strict header grammar compiled
inside `parse_original_diff`. -/
def fileHeaderStrict (l : List Char) : Option (List Char × List Char) :=
  if "diff --git a/".data.isPrefixOf l then
    headerSplit false (l.drop 13)
  else none

/-- One parsed location: an added line of the new file version. -/
structure DiffLocation where
  file_path : String
  line_number : Nat
  content : String
  is_addition : Bool
  deriving DecidableEq, Repr

/-- The line loop of `DiffParserService.parse_diff`, with the state
`(current_file, current_line_number, lines_since_hunk)`. -/
def parseDiffGo : List (List Char) → Option (List Char) → Option Nat → Nat → List DiffLocation
  | [], _, _, _ => []
  | l :: ls, file, cur, off =>
    match fileHeaderTolerant l with
    | some pq => parseDiffGo ls (some pq.2) none 0
    | none =>
      match hunkHeader l with
      | some se => parseDiffGo ls file (some se.2) 0
      | none =>
        match file, cur with
        | some f, some n =>
          if startsWithChar '+' l then
            { file_path := String.mk f, line_number := n + off,
              content := String.mk l.tail, is_addition := true } ::
              parseDiffGo ls file cur (off + 1)
          else if startsWithChar '-' l then parseDiffGo ls file cur off
          else if startsWithChar ' ' l then parseDiffGo ls file cur (off + 1)
          else parseDiffGo ls file cur off
        | _, _ => parseDiffGo ls file cur off

/-- `DiffParserService.parse_diff`. -/
def parse_diff (diff : String) : List DiffLocation :=
  if diff.data.isEmpty then []
  else parseDiffGo (splitLines diff.data) none none 0

/-- The line loop of `DiffParserService.parse_original_diff`: the same
algorithm with the strict file-header grammar. -/
def parseOriginalGo : List (List Char) → Option (List Char) → Option Nat → Nat → List DiffLocation
  | [], _, _, _ => []
  | l :: ls, file, cur, off =>
    match fileHeaderStrict l with
    | some pq => parseOriginalGo ls (some pq.2) none 0
    | none =>
      match hunkHeader l with
      | some se => parseOriginalGo ls file (some se.2) 0
      | none =>
        match file, cur with
        | some f, some n =>
          if startsWithChar '+' l then
            { file_path := String.mk f, line_number := n + off,
              content := String.mk l.tail, is_addition := true } ::
              parseOriginalGo ls file cur (off + 1)
          else if startsWithChar '-' l then parseOriginalGo ls file cur off
          else if startsWithChar ' ' l then parseOriginalGo ls file cur (off + 1)
          else parseOriginalGo ls file cur off
        | _, _ => parseOriginalGo ls file cur off

/-- `DiffParserService.parse_original_diff`. -/
def parse_original_diff (diff : String) : List DiffLocation :=
  if diff.data.isEmpty then []
  else parseOriginalGo (splitLines diff.data) none none 0

/-! ### Decomposition of a substitution pass

`subDecompF` records what `subF` does: the input splits into untouched
gaps and match spans `(pre, mid, post)`; the output keeps the gaps and
`pre`/`post` and replaces each `mid` with `[REDACTED]`.  For an arity-1
rule the whole match is the replaced `mid`; for an arity-3 rule `mid`
is the capture-group-2 span. -/

/-- A segment of a substitution pass. -/
inductive Seg where
  | gap (g : List Char)
  | hit (pre mid post : List Char)

/-- The `(pre, mid, post)` capture slices of a match at the head of `t`. -/
def capsOf (r : Rule) (t : List Char) (g : Nat × Nat × Nat) : List Char × List Char × List Char :=
  match r with
  | .arity1 _ => ([], t.take g.1, [])
  | .arity3 _ _ _ =>
    (t.take g.1, (t.drop g.1).take g.2.1, (t.drop (g.1 + g.2.1)).take g.2.2)

/-- Decomposition of one (fuelled) substitution pass. -/
def subDecompF (r : Rule) : Nat → List Char → List Seg
  | 0, s => [.gap s]
  | fuel + 1, s =>
    match findMatch r s with
    | none => [.gap s]
    | some (i, g) =>
      let len := matchLen r g
      let t := s.drop i
      let c := capsOf r t g
      .gap (s.take i) :: .hit c.1 c.2.1 c.2.2 ::
        (.gap (if len = 0 then t.take 1 else []) ::
          subDecompF r fuel (s.drop (i + max len 1)))

/-- Decomposition of `subRule`. -/
def subDecomp (r : Rule) (s : List Char) : List Seg :=
  subDecompF r (s.length + 1) s

/-- Reassemble the input from a decomposition. -/
def renderIn : List Seg → List Char
  | [] => []
  | .gap g :: segs => g ++ renderIn segs
  | .hit a b c :: segs => a ++ b ++ c ++ renderIn segs

/-- Reassemble the output: each replaced span becomes `[REDACTED]`. -/
def renderOut : List Seg → List Char
  | [] => []
  | .gap g :: segs => g ++ renderOut segs
  | .hit a _ c :: segs => a ++ redactedTok ++ c ++ renderOut segs

/-- Number of newline characters (the line count is this plus one). -/
def countNL (s : List Char) : Nat := s.count '\n'

/-- A segment whose replaced span contains no newline. -/
def segSafe : Seg → Bool
  | .gap _ => true
  | .hit _ b _ => countNL b = 0

/-- No replaced span of this rule's pass over `s` contains a newline. -/
def ruleSafe (r : Rule) (s : List Char) : Bool :=
  (subDecomp r s).all segSafe

/-- No replaced span of any stage of the pipeline contains a newline. -/
def rulesSafe : List Rule → List Char → Bool
  | [], _ => true
  | r :: rs, s => ruleSafe r s && rulesSafe rs (subRule r s)

/-! ### Specification-side line-number arithmetic (for the parser
invariant): the declared start of the most recent hunk header plus the
number of context and addition lines seen since it. -/

/-- A context or addition line. -/
def isCtxOrAdd (l : List Char) : Bool :=
  startsWithChar '+' l || startsWithChar ' ' l

/-- The most recent hunk header of the processed prefix that has not
been cancelled by a later file header, together with the lines that
follow it: `some (declared new-file start, lines since that header)`. -/
def sinceLastHunk (pre : List (List Char)) : Option (Nat × List (List Char)) :=
  pre.foldl
    (fun acc l =>
      if (fileHeaderTolerant l).isSome then none
      else
        match hunkHeader l with
        | some se => some (se.2, [])
        | none => acc.map (fun p => (p.1, p.2 ++ [l])))
    none

/-- Has a file header been seen in the processed prefix? -/
def sawFileHeader (pre : List (List Char)) : Bool :=
  pre.any (fun l => (fileHeaderTolerant l).isSome)

/-- The line numbers the specification predicts: for every addition
line reached with a file header seen and a live hunk header, the hunk's
declared new-file start plus the count of context and addition lines
since that hunk header. -/
def specFrom (pre : List (List Char)) : List (List Char) → List Nat
  | [] => []
  | l :: ls =>
    (match sinceLastHunk pre with
     | some p =>
       if startsWithChar '+' l && sawFileHeader pre then
         [p.1 + (p.2.filter isCtxOrAdd).length]
       else []
     | none => []) ++ specFrom (pre ++ [l]) ls

/-- Specified line numbers of a whole line list. -/
def specLineNumbers (ls : List (List Char)) : List Nat :=
  specFrom [] ls

/-! ### The feedback correlator
(`parse_ai_feedback_with_line_numbers`, integrated_review_tool.py
lines 134-171). -/

/-- Python `str.strip()` (ASCII whitespace). -/
def pyStrip (s : List Char) : List Char :=
  ((s.dropWhile isSpaceChar).reverse.dropWhile isSpaceChar).reverse

/-- Python's substring test `needle in hay`. -/
def containsSub (needle : List Char) : List Char → Bool
  | [] => needle.isEmpty
  | c :: t => needle.isPrefixOf (c :: t) || containsSub needle t

/-- `re.findall(r'(\w+\.<ext>)', text)`: word runs immediately followed
by the literal suffix; leftmost, non-overlapping (a failed run cannot
match from any inner start either, so scanning skips it whole). -/
def findTokGo (sfx : List Char) : Nat → List Char → List (List Char)
  | 0, _ => []
  | fuel + 1, s =>
    match s with
    | [] => []
    | c :: rest =>
      if isWordChar c then
        let r := maxRun isWordChar (c :: rest)
        let after := (c :: rest).drop r
        if sfx.isPrefixOf after then
          ((c :: rest).take r ++ sfx) :: findTokGo sfx fuel (after.drop sfx.length)
        else findTokGo sfx fuel after
      else findTokGo sfx fuel rest

/-- File-name tokens extracted from a description:
`(\w+\.swift)` matches first, then `(\w+\.pbxproj)` matches. -/
def extractFileNames (desc : String) : List (List Char) :=
  findTokGo ".swift".data (desc.data.length + 1) desc.data ++
    findTokGo ".pbxproj".data (desc.data.length + 1) desc.data

/-- The inner loops: the first extracted file name that is a substring
of some location's file path wins, and takes the first such location. -/
def firstNameLoc (names : List (List Char)) (locs : List DiffLocation) : Option DiffLocation :=
  match names with
  | [] => none
  | nm :: rest =>
    match locs.find? (fun loc => containsSub nm loc.file_path.data) with
    | some loc => some loc
    | none => firstNameLoc rest locs

/-- The nested loops `for file_name in file_matches: for location in
diff_locations: if file_name in location.file_path`. -/
def matchedByName (desc : String) (locs : List DiffLocation) : Option DiffLocation :=
  firstNameLoc (extractFileNames desc) locs

/-- The content fallback: a nonempty snippet, stripped, searched as a
substring of each location's content. -/
def matchedBySnippet (snippet : String) (locs : List DiffLocation) : Option DiffLocation :=
  if snippet.data.isEmpty then none
  else locs.find? (fun loc => containsSub (pyStrip snippet.data) loc.content.data)

/-- Resolve one issue to `(file_path, line_number)`:
name match first, then snippet match, else the `("Unknown", 0)`
sentinel. -/
def correlate (desc snippet : String) (locs : List DiffLocation) : String × Nat :=
  match matchedByName desc locs with
  | some loc => (loc.file_path, loc.line_number)
  | none =>
    match matchedBySnippet snippet locs with
    | some loc => (loc.file_path, loc.line_number)
    | none => ("Unknown", 0)

/-- One parsed AI-feedback issue (the fields the correlator reads). -/
structure Issue where
  description : String
  code_snippet : String
  severity : String

/-- The structured comment built for one issue. -/
structure StructuredComment where
  content : String
  severity : String
  file_path : String
  line_number : Nat
  is_summary : Bool

/-- The loop over issues: every issue yields exactly one structured
comment, with the sentinel coordinates when correlation fails. -/
def structuredComments (issues : List Issue) (locs : List DiffLocation) : List StructuredComment :=
  issues.map (fun iss =>
    let fl := correlate iss.description iss.code_snippet locs
    { content := iss.description, severity := iss.severity,
      file_path := fl.1, line_number := fl.2, is_summary := false })

/-! ## Theorems -/

/-- C7: parsing a diff with a single file header, the hunk header
`@@ -1,3 +1,4 @@` and the body lines " a", "+b", " c", "-old", " d"
yields exactly one `DiffLocation`: the file's b-path, line number 2,
content "b", marked as an addition; the context lines occupy new-file
lines 1, 3, 4 without emission and the removal line neither emits nor
advances the cursor. -/
theorem c7_single_hunk_roundtrip :
    parse_diff "diff --git a/Foo.swift b/Foo.swift\n@@ -1,3 +1,4 @@\n a\n+b\n c\n-old\n d" =
      [{ file_path := "Foo.swift", line_number := 2, content := "b", is_addition := true }] := by
  decide

/-- C10: `detect_credentials` runs every rule over the original,
unmodified input, so the credential of `export KEY="x"` is reported
twice — once by the export-variable rule and once by the bare-variable
rule — while `sanitize_diff`, which rewrites cumulatively, redacts it
once. -/
theorem c10_detect_credentials_independent :
    detect_credentials "export KEY=\"x\"" = ["x", "x"] ∧
      sanitize_diff "export KEY=\"x\"" = "export KEY=\"[REDACTED]\"" := by
  exact ⟨by decide, by decide⟩

/-- C1 counterexample: on the diff whose added line holds a credential
value spanning two physical lines, the quote rule's match crosses the
newline, so the sanitized diff parses to one location while the
original parses to two — the claimed equality of lengths (and pointwise
line numbers) fails. -/
theorem c1_counterexample :
    (parse_diff "diff --git a/f b/f\n@@ -1 +1,2 @@\n+password: \"a\n+b\"").length = 2 ∧
      (parse_diff
        (sanitize_diff "diff --git a/f b/f\n@@ -1 +1,2 @@\n+password: \"a\n+b\"")).length = 1 := by
  exact ⟨by decide, by decide⟩

/-- C2 counterexample: the quote rules' `[^'\"]*` span can cross a
newline, so sanitization can change the line count: `password: "a⏎b"`
has two lines before sanitization and one after. -/
theorem c2_counterexample :
    (splitLines ("password: \"a\nb\"".data)).length = 2 ∧
      (splitLines (sanitize_diff "password: \"a\nb\"").data).length = 1 := by
  exact ⟨by decide, by decide⟩

/-! ### Decomposition lemmas for one substitution pass -/

/-- The three capture slices of a match tile the matched span. -/
lemma capsOf_tiles (r : Rule) (t : List Char) (g : Nat × Nat × Nat) :
    (capsOf r t g).1 ++ (capsOf r t g).2.1 ++ (capsOf r t g).2.2 =
      t.take (matchLen r g) := by
  cases r with
  | arity1 gr => simp [capsOf, matchLen]
  | arity3 g1 g2 g3 =>
    simp only [capsOf, matchLen]
    rw [List.take_add, List.take_add]

/-- The replacement text is the prefix slice, the redaction token, and
the suffix slice. -/
lemma capsOf_repl (r : Rule) (t : List Char) (g : Nat × Nat × Nat) :
    (capsOf r t g).1 ++ redactedTok ++ (capsOf r t g).2.2 =
      replacementFor r t g := by
  cases r with
  | arity1 gr => simp [capsOf, replacementFor]
  | arity3 g1 g2 g3 => simp [capsOf, replacementFor, List.append_assoc]

/-- Splicing a span of length `len` back between `take i` and the drop
beyond the match (with the extra copied character after an empty match)
reassembles the whole list. -/
lemma take_mid_drop (s : List Char) (i len : Nat) :
    s.take i ++ ((s.drop i).take len ++
      ((if len = 0 then (s.drop i).take 1 else ([] : List Char)) ++
        s.drop (i + max len 1))) = s := by
  by_cases hl : len = 0
  · subst hl
    have h1 : max 0 1 = 1 := rfl
    rw [h1, if_pos rfl]
    simp only [List.take_zero, List.nil_append]
    rw [← List.append_assoc, ← List.take_add, List.take_append_drop]
  · have h1 : max len 1 = len := by omega
    rw [h1, if_neg hl]
    simp only [List.nil_append]
    rw [← List.append_assoc, ← List.take_add, List.take_append_drop]

/-- Rendering the decomposition with redactions gives the substitution
output. -/
lemma renderOut_subDecompF (r : Rule) :
    ∀ fuel s, renderOut (subDecompF r fuel s) = subF r fuel s := by
  intro fuel
  induction fuel with
  | zero => intro s; simp [subDecompF, subF, renderOut]
  | succ n ih =>
    intro s
    simp only [subDecompF, subF]
    cases h : findMatch r s with
    | none => simp [renderOut]
    | some ig =>
      obtain ⟨i, g⟩ := ig
      simp only [renderOut, ih]
      rw [capsOf_repl r (s.drop i) g]
      simp [List.append_assoc]

/-- Rendering the decomposition without redactions gives back the
input. -/
lemma renderIn_subDecompF (r : Rule) :
    ∀ fuel s, renderIn (subDecompF r fuel s) = s := by
  intro fuel
  induction fuel with
  | zero => intro s; simp [subDecompF, renderIn]
  | succ n ih =>
    intro s
    simp only [subDecompF]
    cases h : findMatch r s with
    | none => simp [renderIn]
    | some ig =>
      obtain ⟨i, g⟩ := ig
      simp only [renderIn, ih]
      rw [capsOf_tiles r (s.drop i) g]
      exact take_mid_drop s i (matchLen r g)

/-- C5: one substitution pass of an arity-3 rule factors the input into
untouched gaps and match spans `(prefix, middle, suffix)` — reassembling
them gives back the input byte for byte — and the produced output is the
same factorization with each prefix and suffix kept byte-identical and
exactly the middle captured span replaced by `[REDACTED]`. -/
theorem c5_arity3_prefix_suffix_preserved (g1 g2 g3 : List Atom) (s : List Char) :
    renderIn (subDecomp (Rule.arity3 g1 g2 g3) s) = s ∧
      subRule (Rule.arity3 g1 g2 g3) s = renderOut (subDecomp (Rule.arity3 g1 g2 g3) s) := by
  exact ⟨renderIn_subDecompF _ _ _, (renderOut_subDecompF _ _ _).symm⟩

/-! ### Newline preservation (C2, amended) -/

/-- The redaction token holds no newline. -/
lemma countNL_redactedTok : countNL redactedTok = 0 := by decide

/-- `countNL` distributes over append. -/
lemma countNL_append (a b : List Char) : countNL (a ++ b) = countNL a + countNL b :=
  List.count_append '\n' a b

/-- If no replaced span holds a newline, redacting does not change the
newline count. -/
lemma countNL_renderOut_of_safe :
    ∀ segs : List Seg, segs.all segSafe = true →
      countNL (renderOut segs) = countNL (renderIn segs) := by
  intro segs h
  induction segs with
  | nil => rfl
  | cons sg rest ih =>
    rw [List.all_cons, Bool.and_eq_true] at h
    cases sg with
    | gap g =>
      simp only [renderOut, renderIn, countNL_append]
      rw [ih h.2]
    | hit a b c =>
      have hb : countNL b = 0 := by
        have := h.1
        simp only [segSafe, decide_eq_true_eq] at this
        exact this
      simp only [renderOut, renderIn, countNL_append]
      rw [ih h.2, countNL_redactedTok, hb]

/-- One safe substitution pass preserves the newline count. -/
lemma countNL_subRule (r : Rule) (s : List Char) (h : ruleSafe r s = true) :
    countNL (subRule r s) = countNL s := by
  have h1 := renderOut_subDecompF r (s.length + 1) s
  have h2 := renderIn_subDecompF r (s.length + 1) s
  calc countNL (subRule r s)
      = countNL (renderOut (subDecompF r (s.length + 1) s)) := by rw [h1]; rfl
    _ = countNL (renderIn (subDecompF r (s.length + 1) s)) :=
        countNL_renderOut_of_safe _ h
    _ = countNL s := by rw [h2]

/-- A safe pipeline run preserves the newline count. -/
lemma countNL_sanitizeList :
    ∀ (rules : List Rule) (s : List Char), rulesSafe rules s = true →
      countNL (sanitizeList rules s) = countNL s := by
  intro rules
  induction rules with
  | nil => intro s _; rfl
  | cons r rs ih =>
    intro s h
    rw [rulesSafe, Bool.and_eq_true] at h
    rw [sanitizeList, ih _ h.2, countNL_subRule r s h.1]

/-- `splitLines` yields one piece more than there are newlines. -/
lemma splitLines_ne_nil : ∀ s : List Char, splitLines s ≠ [] := by
  intro s
  cases s with
  | nil => simp [splitLines]
  | cons c rest =>
    simp only [splitLines]
    cases h : splitLines rest with
    | nil => simp
    | cons l ls =>
      by_cases hc : c = '\n' <;> simp [hc]

/-- The number of lines is the newline count plus one. -/
lemma splitLines_length : ∀ s : List Char, (splitLines s).length = countNL s + 1 := by
  intro s
  induction s with
  | nil => rfl
  | cons c rest ih =>
    cases h : splitLines rest with
    | nil => exact absurd h (splitLines_ne_nil rest)
    | cons l ls =>
      have hsplit : splitLines (c :: rest) =
          if c = '\n' then [] :: l :: ls else (c :: l) :: ls := by
        simp only [splitLines, h]
      rw [h] at ih
      rw [hsplit]
      by_cases hc : c = '\n'
      · subst hc
        rw [if_pos rfl]
        have hcount : countNL ('\n' :: rest) = countNL rest + 1 := by
          simp [countNL, List.count_cons]
        simp only [List.length_cons] at ih ⊢
        rw [hcount]
        omega
      · rw [if_neg hc]
        have hcount : countNL (c :: rest) = countNL rest := by
          simp [countNL, List.count_cons, hc]
        simp only [List.length_cons] at ih ⊢
        rw [hcount]
        omega

/-- C2 (amended): sanitization preserves the number of lines whenever no
replaced span of any stage of the pipeline contains a newline (which the
counterexample shows is the necessary restriction: a quote rule's match
can cross a newline and merge lines). -/
theorem c2_sanitize_preserves_line_count (T : String)
    (h : rulesSafe sanitizationRules T.data = true) :
    (splitLines (sanitize_diff T).data).length = (splitLines T.data).length := by
  rw [splitLines_length, splitLines_length]
  have hd : (sanitize_diff T).data = sanitizeList sanitizationRules T.data := by
    simp only [sanitize_diff]
  rw [hd, countNL_sanitizeList _ _ h]

/-- Witness for the amended C2 at the concrete input `password: "abc"`. -/
theorem c2_witness :
    rulesSafe sanitizationRules ("password: \"abc\"".data) = true ∧
      (splitLines (sanitize_diff "password: \"abc\"").data).length =
        (splitLines ("password: \"abc\"".data)).length :=
  ⟨by decide, c2_sanitize_preserves_line_count "password: \"abc\"" (by decide)⟩

/-! ### The parser's line-number invariant (C3) -/

/-- A line starting with one character does not start with another. -/
lemma startsWithChar_ne {a b : Char} (hne : a ≠ b) (l : List Char)
    (h : startsWithChar a l = true) : startsWithChar b l = false := by
  cases l with
  | nil => simp [startsWithChar] at h
  | cons c t =>
    simp only [startsWithChar, decide_eq_true_eq] at h
    subst h
    simp only [startsWithChar, decide_eq_false_iff_not]
    exact hne

/-- A line whose head is a fixed non-`+` character does not start
with `+`. -/
lemma not_plus_of_head {c : Char} {cs l : List Char} (hc : c ≠ '+')
    (hp : (c :: cs).isPrefixOf l = true) : startsWithChar '+' l = false := by
  cases l with
  | nil => simp [List.isPrefixOf] at hp
  | cons x t =>
    simp only [List.isPrefixOf, Bool.and_eq_true, beq_iff_eq] at hp
    have hx : x = c := hp.1.symm
    subst hx
    simp only [startsWithChar, decide_eq_false_iff_not]
    exact hc

/-- A line matched by the tolerant file-header grammar starts with `d`. -/
lemma fileHeaderTolerant_not_plus {l : List Char} {pq : List Char × List Char}
    (h : fileHeaderTolerant l = some pq) : startsWithChar '+' l = false := by
  have hp : "diff --git a".data.isPrefixOf l = true := by
    by_cases hp : "diff --git a".data.isPrefixOf l
    · exact hp
    · rw [fileHeaderTolerant, if_neg hp] at h
      exact absurd h (by simp)
  exact not_plus_of_head (by decide)
    (show ('d' :: "iff --git a".data).isPrefixOf l = true from hp)

/-- A line matched by the hunk-header grammar starts with `@`. -/
lemma hunkHeader_not_plus {l : List Char} {se : Nat × Nat}
    (h : hunkHeader l = some se) : startsWithChar '+' l = false := by
  have hp : "@@ -".data.isPrefixOf l = true := by
    by_cases hp : "@@ -".data.isPrefixOf l
    · exact hp
    · rw [hunkHeader, if_neg hp] at h
      exact absurd h (by simp)
  exact not_plus_of_head (by decide)
    (show ('@' :: "@ -".data).isPrefixOf l = true from hp)

/-- Unfolding `sinceLastHunk` across one appended line. -/
lemma sinceLastHunk_snoc (pre : List (List Char)) (l : List Char) :
    sinceLastHunk (pre ++ [l]) =
      (if (fileHeaderTolerant l).isSome then none
       else
         match hunkHeader l with
         | some se => some (se.2, [])
         | none => (sinceLastHunk pre).map (fun p => (p.1, p.2 ++ [l]))) := by
  simp [sinceLastHunk, List.foldl_append]

/-- Unfolding `sawFileHeader` across one appended line. -/
lemma sawFileHeader_snoc (pre : List (List Char)) (l : List Char) :
    sawFileHeader (pre ++ [l]) =
      (sawFileHeader pre || (fileHeaderTolerant l).isSome) := by
  simp [sawFileHeader, List.any_append]

/-- The parser loop emits exactly the specified line numbers, given the
state abstraction invariants. -/
lemma parseDiffGo_spec :
    ∀ (ls pre : List (List Char)) (file : Option (List Char)) (cur : Option Nat) (off : Nat),
      file.isSome = sawFileHeader pre →
      cur = (sinceLastHunk pre).map (fun p => p.1) →
      (∀ p, sawFileHeader pre = true → sinceLastHunk pre = some p →
        off = (p.2.filter isCtxOrAdd).length) →
      (parseDiffGo ls file cur off).map (fun loc => loc.line_number) = specFrom pre ls := by
  intro ls
  induction ls with
  | nil => intro pre file cur off _ _ _; rfl
  | cons l ls ih =>
    intro pre file cur off hfile hcur hoff
    simp only [specFrom]
    cases hfh : fileHeaderTolerant l with
    | some pq =>
      have hplus := fileHeaderTolerant_not_plus hfh
      simp only [parseDiffGo, hfh]
      have tail := ih (pre ++ [l]) (some pq.2) none 0
        (by rw [sawFileHeader_snoc, hfh]; simp)
        (by rw [sinceLastHunk_snoc, hfh]; simp)
        (by intro p _ hp; rw [sinceLastHunk_snoc, hfh] at hp; simp at hp)
      rw [tail]
      cases hsl : sinceLastHunk pre with
      | none => simp
      | some p => simp [hplus]
    | none =>
      cases hh : hunkHeader l with
      | some se =>
        have hplus := hunkHeader_not_plus hh
        simp only [parseDiffGo, hfh, hh]
        have tail := ih (pre ++ [l]) file (some se.2) 0
          (by rw [sawFileHeader_snoc, hfh]; simpa using hfile)
          (by rw [sinceLastHunk_snoc, hfh, hh]; simp)
          (by
            intro p _ hp
            rw [sinceLastHunk_snoc, hfh, hh] at hp
            simp only [Option.isSome_none, Bool.false_eq_true, if_neg] at hp
            cases hp
            rfl)
        rw [tail]
        cases hsl : sinceLastHunk pre with
        | none => simp
        | some p => simp [hplus]
      | none =>
        have hsnocSaw : sawFileHeader (pre ++ [l]) = sawFileHeader pre := by
          rw [sawFileHeader_snoc, hfh]; simp
        have hsnocHunk : sinceLastHunk (pre ++ [l]) =
            (sinceLastHunk pre).map (fun p => (p.1, p.2 ++ [l])) := by
          rw [sinceLastHunk_snoc, hfh, hh]; simp
        cases file with
        | none =>
          have hsaw : sawFileHeader pre = false := by simpa using hfile.symm
          have tail := ih (pre ++ [l]) none cur off
            (by rw [hsnocSaw, hsaw]; simp)
            (by rw [hsnocHunk]; cases hsl : sinceLastHunk pre with
                | none => simpa [hsl] using hcur
                | some p => simpa [hsl] using hcur)
            (by intro p h1 _; rw [hsnocSaw, hsaw] at h1; cases h1)
          simp only [parseDiffGo, hfh, hh]
          rw [tail]
          cases hsl : sinceLastHunk pre with
          | none => simp
          | some p => simp [hsaw]
        | some f =>
          have hsaw : sawFileHeader pre = true := by simpa using hfile.symm
          cases cur with
          | none =>
            have hsl : sinceLastHunk pre = none := by
              cases h' : sinceLastHunk pre with
              | none => rfl
              | some p => rw [h'] at hcur; simp at hcur
            have tail := ih (pre ++ [l]) (some f) none off
              (by rw [hsnocSaw]; exact hfile)
              (by rw [hsnocHunk, hsl]; rfl)
              (by intro p _ hp; rw [hsnocHunk, hsl] at hp; simp at hp)
            simp only [parseDiffGo, hfh, hh]
            rw [tail, hsl]
            simp
          | some n =>
            obtain ⟨p, hsl, hn⟩ : ∃ p, sinceLastHunk pre = some p ∧ p.1 = n := by
              cases h' : sinceLastHunk pre with
              | none => rw [h'] at hcur; simp at hcur
              | some p =>
                rw [h'] at hcur
                simp only [Option.map_some'] at hcur
                exact ⟨p, rfl, (Option.some_inj.mp hcur).symm⟩
            have hofv : off = (p.2.filter isCtxOrAdd).length := hoff p hsaw hsl
            have hctxT : isCtxOrAdd l = true →
                ((p.2 ++ [l]).filter isCtxOrAdd).length =
                  (p.2.filter isCtxOrAdd).length + 1 := by
              intro hb; simp [List.filter_append, hb]
            have hctxF : isCtxOrAdd l = false →
                ((p.2 ++ [l]).filter isCtxOrAdd).length =
                  (p.2.filter isCtxOrAdd).length := by
              intro hb; simp [List.filter_append, hb]
            have tailInv : ∀ off', off' = ((p.2 ++ [l]).filter isCtxOrAdd).length →
                (parseDiffGo ls (some f) (some n) off').map (fun loc => loc.line_number) =
                  specFrom (pre ++ [l]) ls := by
              intro off' hoff'
              exact ih (pre ++ [l]) (some f) (some n) off'
                (by rw [hsnocSaw]; exact hfile)
                (by rw [hsnocHunk, hsl]; simp [hn])
                (by
                  intro q h1 hq
                  rw [hsnocHunk, hsl] at hq
                  simp only [Option.map_some', Option.some_inj] at hq
                  subst hq
                  exact hoff')
            by_cases hplus : startsWithChar '+' l = true
            · have hadd : isCtxOrAdd l = true := by simp [isCtxOrAdd, hplus]
              simp only [parseDiffGo, hfh, hh, hplus, if_true, List.map_cons]
              rw [tailInv (off + 1) (by rw [hctxT hadd, hofv]), hsl]
              simp [hplus, hsaw, hn, hofv]
            · have hplusF : startsWithChar '+' l = false := by
                simpa using hplus
              by_cases hminus : startsWithChar '-' l = true
              · have hspace : startsWithChar ' ' l = false :=
                  startsWithChar_ne (by decide) l hminus
                have hctx0 : isCtxOrAdd l = false := by
                  simp [isCtxOrAdd, hplusF, hspace]
                simp only [parseDiffGo, hfh, hh, hplusF, hminus,
                  Bool.false_eq_true, if_false, if_true]
                rw [tailInv off (by rw [hctxF hctx0, hofv]), hsl]
                simp [hplusF]
              · have hminusF : startsWithChar '-' l = false := by
                  simpa using hminus
                by_cases hspace : startsWithChar ' ' l = true
                · have hctx1 : isCtxOrAdd l = true := by
                    simp [isCtxOrAdd, hspace]
                  simp only [parseDiffGo, hfh, hh, hplusF, hminusF, hspace,
                    Bool.false_eq_true, if_false, if_true]
                  rw [tailInv (off + 1) (by rw [hctxT hctx1, hofv]), hsl]
                  simp [hplusF]
                · have hspaceF : startsWithChar ' ' l = false := by
                    simpa using hspace
                  have hctx0 : isCtxOrAdd l = false := by
                    simp [isCtxOrAdd, hplusF, hspaceF]
                  simp only [parseDiffGo, hfh, hh, hplusF, hminusF, hspaceF,
                    Bool.false_eq_true, if_false]
                  rw [tailInv off (by rw [hctxF hctx0, hofv]), hsl]
                  simp [hplusF]

/-- C3: every location the parser emits carries a line number equal to
the most recent hunk header's declared new-file start plus the number of
context and addition lines processed since that hunk header (within that
hunk), and only such lines are emitted. -/
theorem c3_line_numbers (diff : String) :
    (parse_diff diff).map (fun loc => loc.line_number) =
      specLineNumbers (splitLines diff.data) := by
  rw [parse_diff]
  by_cases he : diff.data.isEmpty
  · rw [if_pos he]
    have : diff.data = [] := by simpa [List.isEmpty_iff] using he
    rw [this]
    rfl
  · rw [if_neg he]
    exact parseDiffGo_spec (splitLines diff.data) [] none none 0 rfl rfl
      (by intro p _ hp; simp [sinceLastHunk] at hp)

/-! ### No emission before both headers (C8) -/

/-- The parse loop instrumented with the index of the line that emits
each location (same recursion as `parseDiffGo`). -/
def parseDiffIdxGo : Nat → List (List Char) → Option (List Char) → Option Nat → Nat →
    List (Nat × DiffLocation)
  | _, [], _, _, _ => []
  | i, l :: ls, file, cur, off =>
    match fileHeaderTolerant l with
    | some pq => parseDiffIdxGo (i + 1) ls (some pq.2) none 0
    | none =>
      match hunkHeader l with
      | some se => parseDiffIdxGo (i + 1) ls file (some se.2) 0
      | none =>
        match file, cur with
        | some f, some n =>
          if startsWithChar '+' l then
            (i, { file_path := String.mk f, line_number := n + off,
                  content := String.mk l.tail, is_addition := true }) ::
              parseDiffIdxGo (i + 1) ls file cur (off + 1)
          else if startsWithChar '-' l then parseDiffIdxGo (i + 1) ls file cur off
          else if startsWithChar ' ' l then parseDiffIdxGo (i + 1) ls file cur (off + 1)
          else parseDiffIdxGo (i + 1) ls file cur off
        | _, _ => parseDiffIdxGo (i + 1) ls file cur off

/-- `parse_diff` with each location paired with its emitting line index. -/
def parseDiffIdx (diff : String) : List (Nat × DiffLocation) :=
  if diff.data.isEmpty then []
  else parseDiffIdxGo 0 (splitLines diff.data) none none 0

/-- Dropping the indices recovers the ordinary parse loop. -/
lemma parseDiffIdxGo_proj :
    ∀ (ls : List (List Char)) (i : Nat) (f : Option (List Char)) (c : Option Nat) (o : Nat),
      (parseDiffIdxGo i ls f c o).map (fun p => p.2) = parseDiffGo ls f c o := by
  intro ls
  induction ls with
  | nil => intro i f c o; rfl
  | cons l t ih =>
    intro i f c o
    cases hfh : fileHeaderTolerant l with
    | some pq =>
      simp only [parseDiffIdxGo, parseDiffGo, hfh]
      exact ih (i + 1) (some pq.2) none 0
    | none =>
      cases hh : hunkHeader l with
      | some se =>
        simp only [parseDiffIdxGo, parseDiffGo, hfh, hh]
        exact ih (i + 1) f (some se.2) 0
      | none =>
        simp only [parseDiffIdxGo, parseDiffGo, hfh, hh]
        cases f with
        | none => exact ih (i + 1) none c o
        | some fa =>
          cases c with
          | none => exact ih (i + 1) (some fa) none o
          | some n =>
            by_cases hp : startsWithChar '+' l = true
            · simp only [hp, if_true, List.map_cons]
              rw [ih (i + 1) (some fa) (some n) (o + 1)]
            · have hpF : startsWithChar '+' l = false := by simpa using hp
              simp only [hpF, Bool.false_eq_true, if_false]
              by_cases hm : startsWithChar '-' l = true
              · simp only [hm, if_true]
                exact ih (i + 1) (some fa) (some n) o
              · have hmF : startsWithChar '-' l = false := by simpa using hm
                simp only [hmF, Bool.false_eq_true, if_false]
                by_cases hs : startsWithChar ' ' l = true
                · simp only [hs, if_true]
                  exact ih (i + 1) (some fa) (some n) (o + 1)
                · have hsF : startsWithChar ' ' l = false := by simpa using hs
                  simp only [hsF, Bool.false_eq_true, if_false]
                  exact ih (i + 1) (some fa) (some n) o

/-- Attribution invariant: when the loop starts after a processed
prefix `pre` whose state abstraction holds (the file slot is set iff a
file header occurred in `pre`, and a set cursor means a hunk header
occurred in `pre`), every emitted index points at a line strictly
preceded by a file-header line and a hunk-header line. -/
lemma parseDiffIdxGo_attrib :
    ∀ (ls pre : List (List Char)) (f : Option (List Char)) (c : Option Nat) (o : Nat),
      f.isSome = sawFileHeader pre →
      (c.isSome = true → pre.any (fun l => (hunkHeader l).isSome) = true) →
      ∀ p ∈ parseDiffIdxGo pre.length ls f c o,
        sawFileHeader ((pre ++ ls).take p.1) = true ∧
          ((pre ++ ls).take p.1).any (fun l => (hunkHeader l).isSome) = true := by
  intro ls
  induction ls with
  | nil =>
    intro pre f c o _ _ p hp
    simp [parseDiffIdxGo] at hp
  | cons l t ih =>
    intro pre f c o hf hc p hp
    have hlen : (pre ++ [l]).length = pre.length + 1 := by simp
    have happ : (pre ++ [l]) ++ t = pre ++ l :: t := by simp
    cases hfh : fileHeaderTolerant l with
    | some pq =>
      simp only [parseDiffIdxGo, hfh] at hp
      rw [← hlen] at hp
      have hres := ih (pre ++ [l]) (some pq.2) none 0
        (by rw [sawFileHeader_snoc, hfh]; simp)
        (by intro hcc; simp at hcc)
        p hp
      rw [happ] at hres
      exact hres
    | none =>
      cases hh : hunkHeader l with
      | some se =>
        simp only [parseDiffIdxGo, hfh, hh] at hp
        rw [← hlen] at hp
        have hres := ih (pre ++ [l]) f (some se.2) 0
          (by rw [sawFileHeader_snoc, hfh]; simpa using hf)
          (by intro _; rw [List.any_append]; simp [hh])
          p hp
        rw [happ] at hres
        exact hres
      | none =>
        have hf' : ∀ fx : Option (List Char), fx.isSome = sawFileHeader pre →
            fx.isSome = sawFileHeader (pre ++ [l]) := by
          intro fx hfx
          rw [sawFileHeader_snoc, hfh]
          simpa using hfx
        have hc' : ∀ cx : Option Nat,
            (cx.isSome = true → pre.any (fun l => (hunkHeader l).isSome) = true) →
            (cx.isSome = true → (pre ++ [l]).any (fun l => (hunkHeader l).isSome) = true) := by
          intro cx hcx hcc
          rw [List.any_append, hcx hcc]
          simp
        cases f with
        | none =>
          simp only [parseDiffIdxGo, hfh, hh] at hp
          rw [← hlen] at hp
          have hres := ih (pre ++ [l]) none c o (hf' none hf) (hc' c hc) p hp
          rw [happ] at hres
          exact hres
        | some fa =>
          cases c with
          | none =>
            simp only [parseDiffIdxGo, hfh, hh] at hp
            rw [← hlen] at hp
            have hres := ih (pre ++ [l]) (some fa) none o (hf' (some fa) hf)
              (hc' none (by intro hcc; simp at hcc)) p hp
            rw [happ] at hres
            exact hres
          | some n =>
            by_cases hpl : startsWithChar '+' l = true
            · simp only [parseDiffIdxGo, hfh, hh, hpl, if_true] at hp
              rcases List.mem_cons.mp hp with hpe | hpm
              · subst hpe
                show sawFileHeader ((pre ++ l :: t).take pre.length) = true ∧
                  ((pre ++ l :: t).take pre.length).any (fun l => (hunkHeader l).isSome) = true
                rw [List.take_left]
                exact ⟨hf.symm, hc rfl⟩
              · rw [← hlen] at hpm
                have hres := ih (pre ++ [l]) (some fa) (some n) (o + 1)
                  (hf' (some fa) hf) (hc' (some n) hc) p hpm
                rw [happ] at hres
                exact hres
            · have hplF : startsWithChar '+' l = false := by simpa using hpl
              by_cases hml : startsWithChar '-' l = true
              · simp only [parseDiffIdxGo, hfh, hh, hplF, Bool.false_eq_true, if_false,
                  hml, if_true] at hp
                rw [← hlen] at hp
                have hres := ih (pre ++ [l]) (some fa) (some n) o
                  (hf' (some fa) hf) (hc' (some n) hc) p hp
                rw [happ] at hres
                exact hres
              · have hmlF : startsWithChar '-' l = false := by simpa using hml
                by_cases hsl : startsWithChar ' ' l = true
                · simp only [parseDiffIdxGo, hfh, hh, hplF, hmlF, Bool.false_eq_true,
                    if_false, hsl, if_true] at hp
                  rw [← hlen] at hp
                  have hres := ih (pre ++ [l]) (some fa) (some n) (o + 1)
                    (hf' (some fa) hf) (hc' (some n) hc) p hp
                  rw [happ] at hres
                  exact hres
                · have hslF : startsWithChar ' ' l = false := by simpa using hsl
                  simp only [parseDiffIdxGo, hfh, hh, hplF, hmlF, hslF,
                    Bool.false_eq_true, if_false] at hp
                  rw [← hlen] at hp
                  have hres := ih (pre ++ [l]) (some fa) (some n) o
                    (hf' (some fa) hf) (hc' (some n) hc) p hp
                  rw [happ] at hres
                  exact hres

/-- Lines that are neither file headers nor hunk headers are inert while
the cursor is unset: they emit nothing and change no state. -/
lemma parseDiffGo_inert :
    ∀ (ls2 ls3 : List (List Char)) (pa : List Char) (o : Nat),
      (∀ l ∈ ls2, fileHeaderTolerant l = none ∧ hunkHeader l = none) →
      parseDiffGo (ls2 ++ ls3) (some pa) none o = parseDiffGo ls3 (some pa) none o := by
  intro ls2
  induction ls2 with
  | nil => intro ls3 pa o _; rfl
  | cons l t ih =>
    intro ls3 pa o h
    have hl := h l (by simp)
    simp only [List.cons_append, parseDiffGo, hl.1, hl.2]
    exact ih ls3 pa o (fun l' hl' => h l' (by simp [hl']))

/-- A file header resets the cursor; its segment of following lines
holding no hunk header (and no further file header) emits nothing, and
parsing resumes beyond it with the header's b-path and an unset cursor. -/
lemma parseDiffGo_file_segment :
    ∀ (ls1 : List (List Char)) (fh : List Char) (pq : List Char × List Char)
      (ls2 ls3 : List (List Char)) (f : Option (List Char)) (c : Option Nat) (o : Nat),
      fileHeaderTolerant fh = some pq →
      (∀ l ∈ ls2, fileHeaderTolerant l = none ∧ hunkHeader l = none) →
      parseDiffGo (ls1 ++ fh :: (ls2 ++ ls3)) f c o =
        parseDiffGo ls1 f c o ++ parseDiffGo ls3 (some pq.2) none 0 := by
  intro ls1
  induction ls1 with
  | nil =>
    intro fh pq ls2 ls3 f c o hfh h2
    simp only [List.nil_append, parseDiffGo, hfh]
    exact parseDiffGo_inert ls2 ls3 pq.2 0 h2
  | cons l t ih =>
    intro fh pq ls2 ls3 f c o hfh h2
    simp only [List.cons_append, parseDiffGo]
    cases hfl : fileHeaderTolerant l with
    | some pq1 => exact ih fh pq ls2 ls3 (some pq1.2) none 0 hfh h2
    | none =>
      cases hh : hunkHeader l with
      | some se => exact ih fh pq ls2 ls3 f (some se.2) 0 hfh h2
      | none =>
        cases f with
        | none => exact ih fh pq ls2 ls3 none c o hfh h2
        | some fa =>
          cases c with
          | none => exact ih fh pq ls2 ls3 (some fa) none o hfh h2
          | some n =>
            by_cases hpl : startsWithChar '+' l = true
            · simp only [hpl, if_true, List.cons_append, List.cons.injEq]
              exact ⟨trivial, ih fh pq ls2 ls3 (some fa) (some n) (o + 1) hfh h2⟩
            · have hplF : startsWithChar '+' l = false := by simpa using hpl
              simp only [hplF, Bool.false_eq_true, if_false]
              by_cases hml : startsWithChar '-' l = true
              · simp only [hml, if_true]
                exact ih fh pq ls2 ls3 (some fa) (some n) o hfh h2
              · have hmlF : startsWithChar '-' l = false := by simpa using hml
                simp only [hmlF, Bool.false_eq_true, if_false]
                by_cases hsl : startsWithChar ' ' l = true
                · simp only [hsl, if_true]
                  exact ih fh pq ls2 ls3 (some fa) (some n) (o + 1) hfh h2
                · have hslF : startsWithChar ' ' l = false := by simpa using hsl
                  simp only [hslF, Bool.false_eq_true, if_false]
                  exact ih fh pq ls2 ls3 (some fa) (some n) o hfh h2

/-- C8: for every diff, every location the parser emits is emitted at a
line strictly preceded by both a file-header line and a hunk-header
line (the parser never emits before both have been observed); the
indexed parse projects onto `parse_diff`; and a file header resets the
cursor, so a file header followed by lines holding no hunk header
contributes zero locations, whatever precedes or follows. -/
theorem c8_headers_required :
    (∀ (D : String), ∀ p ∈ parseDiffIdx D,
      (∃ l ∈ (splitLines D.data).take p.1, (fileHeaderTolerant l).isSome = true) ∧
        (∃ l ∈ (splitLines D.data).take p.1, (hunkHeader l).isSome = true)) ∧
      (∀ D : String, (parseDiffIdx D).map (fun p => p.2) = parse_diff D) ∧
      (∀ (ls1 : List (List Char)) (fh : List Char) (pq : List Char × List Char)
        (ls2 ls3 : List (List Char)) (f : Option (List Char)) (c : Option Nat) (o : Nat),
        fileHeaderTolerant fh = some pq →
        (∀ l ∈ ls2, fileHeaderTolerant l = none ∧ hunkHeader l = none) →
        parseDiffGo (ls1 ++ fh :: (ls2 ++ ls3)) f c o =
          parseDiffGo ls1 f c o ++ parseDiffGo ls3 (some pq.2) none 0) := by
  refine ⟨?_, ?_, parseDiffGo_file_segment⟩
  · intro D p hp
    rw [parseDiffIdx] at hp
    by_cases he : D.data.isEmpty
    · rw [if_pos he] at hp
      simp at hp
    · rw [if_neg he] at hp
      have hres := parseDiffIdxGo_attrib (splitLines D.data) [] none none 0 rfl
        (by intro hcc; simp at hcc) p hp
      rw [List.nil_append] at hres
      exact ⟨List.any_eq_true.mp hres.1, List.any_eq_true.mp hres.2⟩
  · intro D
    rw [parseDiffIdx, parse_diff]
    by_cases he : D.data.isEmpty
    · rw [if_pos he, if_pos he]
      rfl
    · rw [if_neg he, if_neg he]
      exact parseDiffIdxGo_proj _ 0 none none 0

/-- Witness for C8: the single emission of a small diff carries index 2,
whose two preceding lines are the observed file header and hunk header;
the projection holds there; and a file header whose segment has no hunk
header contributes nothing between an emitting prefix and a later file. -/
theorem c8_witness :
    ((∃ l ∈ (splitLines ("diff --git a/f b/f\n@@ -1 +1 @@\n+x".data)).take 2,
        (fileHeaderTolerant l).isSome = true) ∧
      (∃ l ∈ (splitLines ("diff --git a/f b/f\n@@ -1 +1 @@\n+x".data)).take 2,
        (hunkHeader l).isSome = true)) ∧
      (parseDiffIdx "diff --git a/f b/f\n@@ -1 +1 @@\n+x").map (fun p => p.2) =
        parse_diff "diff --git a/f b/f\n@@ -1 +1 @@\n+x" ∧
      parseDiffGo (["+a".data] ++ "diff --git a/g b/g".data ::
          ([" c".data, "-d".data] ++ ["@@ -1 +5 @@".data, "+b".data]))
          (some "f".data) (some 3) 1 =
        parseDiffGo ["+a".data] (some "f".data) (some 3) 1 ++
          parseDiffGo ["@@ -1 +5 @@".data, "+b".data] (some "g".data) none 0 :=
  ⟨c8_headers_required.1 "diff --git a/f b/f\n@@ -1 +1 @@\n+x"
      (2, { file_path := "f", line_number := 1, content := "x", is_addition := true })
      (by decide),
    c8_headers_required.2.1 "diff --git a/f b/f\n@@ -1 +1 @@\n+x",
    c8_headers_required.2.2 ["+a".data] "diff --git a/g b/g".data ("g".data, "g".data)
      [" c".data, "-d".data] ["@@ -1 +5 @@".data, "+b".data]
      (some "f".data) (some 3) 1 (by decide) (by decide)⟩


/-! ### The two parse entry points (C9) -/

/-- `containsSub` is the infix relation. -/
lemma containsSub_iff_infix (n : List Char) :
    ∀ h : List Char, containsSub n h = true ↔ n <:+: h := by
  intro h
  induction h with
  | nil =>
    simp [containsSub, List.isEmpty_iff, List.infix_nil]
  | cons c t ih =>
    simp [containsSub, Bool.or_eq_true, List.isPrefixOf_iff_prefix, ih,
      List.infix_cons_iff]

/-- The redaction token sits inside the tolerated separator. -/
lemma red_infix_sepRed : redactedTok <:+: sepRed :=
  ⟨" b".data, "/".data, rfl⟩

/-- parse_diff without its emptiness guard. -/
lemma parse_diff_go (D : String) :
    parse_diff D = parseDiffGo (splitLines D.data) none none 0 := by
  rw [parse_diff]
  by_cases he : D.data.isEmpty
  · rw [if_pos he]
    have hd : D.data = [] := by simpa [List.isEmpty_iff] using he
    rw [hd]
    rfl
  · rw [if_neg he]

/-- parse_original_diff without its emptiness guard. -/
lemma parse_original_diff_go (D : String) :
    parse_original_diff D = parseOriginalGo (splitLines D.data) none none 0 := by
  rw [parse_original_diff]
  by_cases he : D.data.isEmpty
  · rw [if_pos he]
    have hd : D.data = [] := by simpa [List.isEmpty_iff] using he
    rw [hd]
    rfl
  · rw [if_neg he]

/-- When the redaction token occurs nowhere in `r2`, the tolerant split
search and the strict split search agree. -/
lemma headerSplitGo_noRed (r2 : List Char) (hn : ¬ redactedTok <:+: r2) :
    ∀ fuel i, headerSplitGo true r2 fuel i = headerSplitGo false r2 fuel i := by
  intro fuel
  induction fuel with
  | zero => intro i; rfl
  | succ n ih =>
    intro i
    have hsep : sepRed.isPrefixOf (r2.drop i) = false := by
      by_cases hs : sepRed.isPrefixOf (r2.drop i)
      · exact absurd
          ((red_infix_sepRed.trans
            (List.isPrefixOf_iff_prefix.mp hs).isInfix).trans
            (List.drop_suffix i r2).isInfix) hn
      · exact Bool.eq_false_iff.mpr hs
    simp only [headerSplitGo, hsep, Bool.and_false, Bool.false_and,
      Bool.false_eq_true, if_false]
    by_cases h2 : (sepPlain.isPrefixOf (r2.drop i) &&
        !(List.drop sepPlain.length (r2.drop i)).isEmpty) = true
    · rw [if_pos h2, if_pos h2]
    · rw [if_neg h2, if_neg h2]
      exact ih (i + 1)

/-- The length of the tolerant header prefix. -/
lemma diffGitA_length : ("diff --git a".data).length = 12 := by decide

/-- The length of the strict header prefix. -/
lemma diffGitASlash_length : ("diff --git a/".data).length = 13 := by decide

/-- With no redaction token anywhere in the line, the tolerant and
strict file-header grammars agree. -/
lemma fileHeaderTolerant_eq_strict (l : List Char)
    (hn : containsSub redactedTok l = false) :
    fileHeaderTolerant l = fileHeaderStrict l := by
  have hnInf : ¬ redactedTok <:+: l := by
    intro hi
    rw [← containsSub_iff_infix] at hi
    rw [hn] at hi
    cases hi
  by_cases hp : "diff --git a".data.isPrefixOf l
  · obtain ⟨r0, hr0⟩ : ∃ r0, "diff --git a".data ++ r0 = l :=
      List.isPrefixOf_iff_prefix.mp hp
    have hdrop : l.drop 12 = r0 := by
      rw [← hr0, ← diffGitA_length]
      exact List.drop_left _ _
    have hr0suff : r0 <:+ l := ⟨"diff --git a".data, hr0⟩
    have hredr0 : redactedTok.isPrefixOf r0 = false := by
      by_cases hs : redactedTok.isPrefixOf r0
      · exact absurd
          ((List.isPrefixOf_iff_prefix.mp hs).isInfix.trans hr0suff.isInfix) hnInf
      · exact Bool.eq_false_iff.mpr hs
    rw [fileHeaderTolerant, if_pos hp]
    simp only [hdrop, hredr0, Bool.false_eq_true, if_false]
    cases r0 with
    | nil =>
      have hl : l = "diff --git a".data := by rw [← hr0, List.append_nil]
      have hstrict : "diff --git a/".data.isPrefixOf l = false := by
        rw [hl]; decide
      rw [fileHeaderStrict, hstrict]
      simp [startsWithChar]
    | cons c r2 =>
      by_cases hc : c = '/'
      · subst hc
        have hl : l = "diff --git a/".data ++ r2 := by
          rw [← hr0, show "diff --git a/".data = "diff --git a".data ++ ['/'] from rfl,
            List.append_assoc]
          rfl
        have hstrict : "diff --git a/".data.isPrefixOf l = true :=
          List.isPrefixOf_iff_prefix.mpr ⟨r2, hl.symm⟩
        have hdrop13 : l.drop 13 = r2 := by
          rw [hl, ← diffGitASlash_length]
          exact List.drop_left _ _
        rw [fileHeaderStrict, if_pos hstrict, hdrop13]
        simp only [startsWithChar, decide_eq_true_eq, if_pos rfl, List.tail_cons]
        have hr2 : ¬ redactedTok <:+: r2 := by
          intro hi
          exact hnInf (hi.trans (show r2 <:+ l from
            ⟨"diff --git a/".data, hl.symm⟩).isInfix)
        exact headerSplitGo_noRed r2 hr2 r2.length 1
      · have hstrict : "diff --git a/".data.isPrefixOf l = false := by
          by_cases hq : "diff --git a/".data.isPrefixOf l
          · obtain ⟨r2', hr2'⟩ := List.isPrefixOf_iff_prefix.mp hq
            have : l.drop 12 = '/' :: r2' := by
              rw [← hr2',
                show "diff --git a/".data = "diff --git a".data ++ ['/'] from rfl,
                List.append_assoc, ← diffGitA_length]
              exact List.drop_left _ _
            rw [hdrop] at this
            cases this
            exact absurd rfl hc
          · exact Bool.eq_false_iff.mpr hq
        rw [fileHeaderStrict, hstrict]
        simp [startsWithChar, hc]
  · have hq : "diff --git a/".data.isPrefixOf l = false := by
      by_cases hq : "diff --git a/".data.isPrefixOf l
      · exact absurd (List.isPrefixOf_iff_prefix.mpr
          ((show "diff --git a".data <+: "diff --git a/".data by decide).trans
            (List.isPrefixOf_iff_prefix.mp hq))) hp
      · exact Bool.eq_false_iff.mpr hq
    rw [fileHeaderTolerant, if_neg hp, fileHeaderStrict, hq]
    simp

/-- A successful strict split search implies a successful tolerant one. -/
lemma headerSplitGo_false_some (r2 : List Char) :
    ∀ fuel i x, headerSplitGo false r2 fuel i = some x →
      ∃ y, headerSplitGo true r2 fuel i = some y := by
  intro fuel
  induction fuel with
  | zero => intro i x h; cases h
  | succ n ih =>
    intro i x h
    simp only [headerSplitGo, Bool.false_and, Bool.false_eq_true, if_false] at h
    simp only [headerSplitGo]
    by_cases h1 : (true && sepRed.isPrefixOf (r2.drop i) &&
        !(List.drop sepRed.length (r2.drop i)).isEmpty) = true
    · rw [if_pos h1]
      exact ⟨_, rfl⟩
    · rw [if_neg h1]
      by_cases h2 : (sepPlain.isPrefixOf (r2.drop i) &&
          !(List.drop sepPlain.length (r2.drop i)).isEmpty) = true
      · rw [if_pos h2]
        rw [if_pos h2] at h
        exact ⟨_, rfl⟩
      · rw [if_neg h2]
        rw [if_neg h2] at h
        exact ih (i + 1) x h

/-- A strict file-header match implies a tolerant one. -/
lemma fileHeaderStrict_some_tolerant {l : List Char} {x : List Char × List Char}
    (h : fileHeaderStrict l = some x) : ∃ y, fileHeaderTolerant l = some y := by
  have hs : "diff --git a/".data.isPrefixOf l = true := by
    by_cases hs : "diff --git a/".data.isPrefixOf l
    · exact hs
    · rw [fileHeaderStrict, if_neg hs] at h; cases h
  obtain ⟨r2, hr2⟩ := List.isPrefixOf_iff_prefix.mp hs
  have hp : "diff --git a".data.isPrefixOf l = true :=
    List.isPrefixOf_iff_prefix.mpr
      ((show "diff --git a".data <+: "diff --git a/".data by decide).trans ⟨r2, hr2⟩)
  have hdrop : l.drop 12 = '/' :: r2 := by
    rw [← hr2, show "diff --git a/".data = "diff --git a".data ++ ['/'] from rfl,
      List.append_assoc, ← diffGitA_length]
    exact List.drop_left _ _
  have hdrop13 : l.drop 13 = r2 := by
    rw [← hr2, ← diffGitASlash_length]
    exact List.drop_left _ _
  have hred : redactedTok.isPrefixOf (l.drop 12) = false := by
    rw [hdrop, show redactedTok = '[' :: "REDACTED]".data from rfl]
    simp [List.isPrefixOf]
  rw [fileHeaderStrict, if_pos hs, hdrop13] at h
  obtain ⟨y, hy⟩ := headerSplitGo_false_some r2 r2.length 1 x h
  refine ⟨y, ?_⟩
  rw [fileHeaderTolerant, if_pos hp]
  simp only [hred, Bool.false_eq_true, if_false, hdrop]
  simp only [startsWithChar, decide_eq_true_eq, if_pos rfl, List.tail_cons]
  exact hy

/-- When every line is classified identically by the two file-header
grammars, the two parse loops give identical results. -/
lemma parseGo_eq_of_header_eq :
    ∀ (ls : List (List Char)) (file : Option (List Char)) (cur : Option Nat) (off : Nat),
      (∀ l ∈ ls, fileHeaderTolerant l = fileHeaderStrict l) →
      parseDiffGo ls file cur off = parseOriginalGo ls file cur off := by
  intro ls
  induction ls with
  | nil => intro file cur off _; rfl
  | cons l t ih =>
    intro file cur off h
    have hl : fileHeaderTolerant l = fileHeaderStrict l := h l (by simp)
    have ht : ∀ l' ∈ t, fileHeaderTolerant l' = fileHeaderStrict l' :=
      fun l' hl' => h l' (by simp [hl'])
    simp only [parseDiffGo, parseOriginalGo, hl]
    cases hfs : fileHeaderStrict l with
    | some pq => exact ih (some pq.2) none 0 ht
    | none =>
      cases hh : hunkHeader l with
      | some se => exact ih file (some se.2) 0 ht
      | none =>
        cases file with
        | none => exact ih none cur off ht
        | some f =>
          cases cur with
          | none => exact ih (some f) none off ht
          | some n =>
            by_cases hplus : startsWithChar '+' l = true
            · simp only [hplus, if_true]
              rw [ih (some f) (some n) (off + 1) ht]
            · have hplusF : startsWithChar '+' l = false := by simpa using hplus
              simp only [hplusF, Bool.false_eq_true, if_false]
              by_cases hminus : startsWithChar '-' l = true
              · simp only [hminus, if_true]
                exact ih (some f) (some n) off ht
              · have hminusF : startsWithChar '-' l = false := by simpa using hminus
                simp only [hminusF, Bool.false_eq_true, if_false]
                by_cases hspace : startsWithChar ' ' l = true
                · simp only [hspace, if_true]
                  exact ih (some f) (some n) (off + 1) ht
                · have hspaceF : startsWithChar ' ' l = false := by simpa using hspace
                  simp only [hspaceF, Bool.false_eq_true, if_false]
                  exact ih (some f) (some n) off ht

/-- C9: the two parse entry points implement the same algorithm and
differ only in file-header grammar; on any diff whose (tolerant-grammar)
file-header lines contain no `[REDACTED]` token, they return identical
location sequences. -/
theorem c9_entry_points_agree (D : String)
    (h : ∀ l ∈ splitLines D.data, (fileHeaderTolerant l).isSome = true →
      containsSub redactedTok l = false) :
    parse_diff D = parse_original_diff D := by
  rw [parse_diff_go, parse_original_diff_go]
  refine parseGo_eq_of_header_eq _ none none 0 (fun l hl => ?_)
  cases htol : fileHeaderTolerant l with
  | some pq =>
    have hnored : containsSub redactedTok l = false := h l hl (by rw [htol]; rfl)
    rw [← htol]
    exact fileHeaderTolerant_eq_strict l hnored
  | none =>
    cases hstr : fileHeaderStrict l with
    | none => rfl
    | some x =>
      obtain ⟨y, hy⟩ := fileHeaderStrict_some_tolerant hstr
      rw [htol] at hy
      cases hy

/-- Witness for C9 at a concrete redaction-free diff. -/
theorem c9_witness :
    (∀ l ∈ splitLines ("diff --git a/f b/f\n@@ -1 +1 @@\n+x\n-y\n z".data),
      (fileHeaderTolerant l).isSome = true → containsSub redactedTok l = false) ∧
      parse_diff "diff --git a/f b/f\n@@ -1 +1 @@\n+x\n-y\n z" =
        parse_original_diff "diff --git a/f b/f\n@@ -1 +1 @@\n+x\n-y\n z" :=
  ⟨by decide, c9_entry_points_agree "diff --git a/f b/f\n@@ -1 +1 @@\n+x\n-y\n z" (by decide)⟩

/-! ### Sanitization keeps parses line-synchronised (C1, amended) -/

/-- Two lines are classified identically by the parser: same tolerant
file-header status, same hunk-header new-start, and the same `+`/`-`/
space lead character status. -/
def lineClassEqB (l1 l2 : List Char) : Bool :=
  decide ((fileHeaderTolerant l1).isSome = (fileHeaderTolerant l2).isSome) &&
    decide ((hunkHeader l1).map (fun se => se.2) = (hunkHeader l2).map (fun se => se.2)) &&
    decide (startsWithChar '+' l1 = startsWithChar '+' l2) &&
    decide (startsWithChar '-' l1 = startsWithChar '-' l2) &&
    decide (startsWithChar ' ' l1 = startsWithChar ' ' l2)

/-- Pointwise classification equality of two line lists (in particular
they have the same length). -/
def linesClassEq : List (List Char) → List (List Char) → Bool
  | [], [] => true
  | l1 :: t1, l2 :: t2 => lineClassEqB l1 l2 && linesClassEq t1 t2
  | _, _ => false

/-- Classification-equal line lists parse to the same emission pattern
and the same line numbers. -/
lemma parseGo_lineClass :
    ∀ (ls1 ls2 : List (List Char)) (f1 f2 : Option (List Char))
      (cur : Option Nat) (off : Nat),
      linesClassEq ls1 ls2 = true → f1.isSome = f2.isSome →
      (parseDiffGo ls1 f1 cur off).map (fun loc => loc.line_number) =
        (parseDiffGo ls2 f2 cur off).map (fun loc => loc.line_number) := by
  intro ls1
  induction ls1 with
  | nil =>
    intro ls2 f1 f2 cur off h _
    cases ls2 with
    | nil => rfl
    | cons l2 t2 => simp [linesClassEq] at h
  | cons l1 t1 ih =>
    intro ls2 f1 f2 cur off h hf
    cases ls2 with
    | nil => simp [linesClassEq] at h
    | cons l2 t2 =>
      rw [linesClassEq, Bool.and_eq_true] at h
      obtain ⟨h1, h2⟩ := h
      rw [lineClassEqB] at h1
      simp only [Bool.and_eq_true, decide_eq_true_eq] at h1
      obtain ⟨⟨⟨⟨hhdr, hhunk⟩, hplus⟩, hminus⟩, hspace⟩ := h1
      cases hfh1 : fileHeaderTolerant l1 with
      | some pq1 =>
        have : (fileHeaderTolerant l2).isSome = true := by
          rw [← hhdr, hfh1]; rfl
        obtain ⟨pq2, hfh2⟩ : ∃ pq2, fileHeaderTolerant l2 = some pq2 := by
          cases hq : fileHeaderTolerant l2 with
          | none => rw [hq] at this; cases this
          | some pq2 => exact ⟨pq2, rfl⟩
        simp only [parseDiffGo, hfh1, hfh2]
        exact ih t2 (some pq1.2) (some pq2.2) none 0 h2 rfl
      | none =>
        have hfh2 : fileHeaderTolerant l2 = none := by
          cases hq : fileHeaderTolerant l2 with
          | none => rfl
          | some pq2 => rw [hfh1, hq] at hhdr; cases hhdr
        cases hh1 : hunkHeader l1 with
        | some se1 =>
          obtain ⟨se2, hh2, hse⟩ : ∃ se2, hunkHeader l2 = some se2 ∧ se2.2 = se1.2 := by
            cases hq : hunkHeader l2 with
            | none => rw [hh1, hq] at hhunk; cases hhunk
            | some se2 =>
              rw [hh1, hq] at hhunk
              simp only [Option.map_some', Option.some_inj] at hhunk
              exact ⟨se2, rfl, hhunk.symm⟩
          simp only [parseDiffGo, hfh1, hfh2, hh1, hh2, hse]
          exact ih t2 f1 f2 (some se1.2) 0 h2 hf
        | none =>
          have hh2 : hunkHeader l2 = none := by
            cases hq : hunkHeader l2 with
            | none => rfl
            | some se2 => rw [hh1, hq] at hhunk; cases hhunk
          simp only [parseDiffGo, hfh1, hfh2, hh1, hh2]
          cases f1 with
          | none =>
            have hf2 : f2 = none := by
              cases hq : f2 with
              | none => rfl
              | some fb => rw [hq] at hf; cases hf
            subst hf2
            exact ih t2 none none cur off h2 rfl
          | some fa =>
            obtain ⟨fb, hf2⟩ : ∃ fb, f2 = some fb := by
              cases hq : f2 with
              | none => rw [hq] at hf; cases hf
              | some fb => exact ⟨fb, rfl⟩
            subst hf2
            cases cur with
            | none => exact ih t2 (some fa) (some fb) none off h2 rfl
            | some n =>
              by_cases hp1 : startsWithChar '+' l1 = true
              · have hp2 : startsWithChar '+' l2 = true := by rw [← hplus]; exact hp1
                simp only [hp1, hp2, if_true, List.map_cons]
                rw [ih t2 (some fa) (some fb) (some n) (off + 1) h2 rfl]
              · have hp1F : startsWithChar '+' l1 = false := by simpa using hp1
                have hp2F : startsWithChar '+' l2 = false := by rw [← hplus]; exact hp1F
                simp only [hp1F, hp2F, Bool.false_eq_true, if_false]
                by_cases hm1 : startsWithChar '-' l1 = true
                · have hm2 : startsWithChar '-' l2 = true := by rw [← hminus]; exact hm1
                  simp only [hm1, hm2, if_true]
                  exact ih t2 (some fa) (some fb) (some n) off h2 rfl
                · have hm1F : startsWithChar '-' l1 = false := by simpa using hm1
                  have hm2F : startsWithChar '-' l2 = false := by rw [← hminus]; exact hm1F
                  simp only [hm1F, hm2F, Bool.false_eq_true, if_false]
                  by_cases hs1 : startsWithChar ' ' l1 = true
                  · have hs2 : startsWithChar ' ' l2 = true := by rw [← hspace]; exact hs1
                    simp only [hs1, hs2, if_true]
                    exact ih t2 (some fa) (some fb) (some n) (off + 1) h2 rfl
                  · have hs1F : startsWithChar ' ' l1 = false := by simpa using hs1
                    have hs2F : startsWithChar ' ' l2 = false := by rw [← hspace]; exact hs1F
                    simp only [hs1F, hs2F, Bool.false_eq_true, if_false]
                    exact ih t2 (some fa) (some fb) (some n) off h2 rfl

/-- C1 (amended): whenever sanitization leaves the line list
classification-equal (same line splits, headers stay headers with the
same new-file starts, and `+`/`-`/space statuses survive — which the
counterexample shows can fail when a match crosses a newline), parsing
the sanitized diff and the original diff yields location sequences of
equal length with pointwise equal line numbers. -/
theorem c1_sanitized_parse_line_sync (D : String)
    (h : linesClassEq (splitLines D.data) (splitLines (sanitize_diff D).data) = true) :
    (parse_diff (sanitize_diff D)).map (fun loc => loc.line_number) =
        (parse_diff D).map (fun loc => loc.line_number) ∧
      (parse_diff (sanitize_diff D)).length = (parse_diff D).length := by
  have hmap := parseGo_lineClass (splitLines D.data)
    (splitLines (sanitize_diff D).data) none none none 0 h rfl
  constructor
  · rw [parse_diff_go, parse_diff_go]
    exact hmap.symm
  · have hlen := congrArg List.length hmap
    simp only [List.length_map] at hlen
    rw [parse_diff_go, parse_diff_go]
    exact hlen.symm

/-- Witness for the amended C1 at a concrete credential-free diff. -/
theorem c1_witness :
    linesClassEq (splitLines ("diff --git a/f b/f\n@@ -1 +1 @@\n+x".data))
        (splitLines (sanitize_diff "diff --git a/f b/f\n@@ -1 +1 @@\n+x").data) = true ∧
      (parse_diff (sanitize_diff "diff --git a/f b/f\n@@ -1 +1 @@\n+x")).length =
        (parse_diff "diff --git a/f b/f\n@@ -1 +1 @@\n+x").length :=
  ⟨by decide, (c1_sanitized_parse_line_sync "diff --git a/f b/f\n@@ -1 +1 @@\n+x" (by decide)).2⟩

/-! ### The correlator's ordered fallback chain (C6) -/

/-- C6: correlation is an ordered fallback chain — a location whose file
path contains an extracted file name wins, else a location whose content
contains the stripped nonempty snippet, else the `("Unknown", 0)`
sentinel; every issue yields exactly one structured comment (none are
dropped); and the concrete example `"Force unwrap in Foo.swift"` against
`{Foo.swift, 10, "let x = y!"}` resolves to `(Foo.swift, 10)`. -/
theorem c6_correlator_fallback_chain :
    correlate "Force unwrap in Foo.swift" ""
        [{ file_path := "Foo.swift", line_number := 10,
           content := "let x = y!", is_addition := true }] = ("Foo.swift", 10) ∧
      (∀ desc snippet locs loc, matchedByName desc locs = some loc →
        correlate desc snippet locs = (loc.file_path, loc.line_number)) ∧
      (∀ desc snippet locs loc, matchedByName desc locs = none →
        matchedBySnippet snippet locs = some loc →
        correlate desc snippet locs = (loc.file_path, loc.line_number)) ∧
      (∀ desc snippet locs, matchedByName desc locs = none →
        matchedBySnippet snippet locs = none →
        correlate desc snippet locs = ("Unknown", 0)) ∧
      (∀ issues locs, (structuredComments issues locs).length = issues.length) := by
  refine ⟨by decide, ?_, ?_, ?_, ?_⟩
  · intro desc snippet locs loc hname
    simp only [correlate, hname]
  · intro desc snippet locs loc hname hsnip
    simp only [correlate, hname, hsnip]
  · intro desc snippet locs hname hsnip
    simp only [correlate, hname, hsnip]
  · intro issues locs
    simp [structuredComments]

/-- A demonstration location for the C6 witness. -/
def demoLoc : DiffLocation :=
  { file_path := "Src/Foo.swift", line_number := 7, content := "let a = b!", is_addition := true }

/-- Demonstration issues for the C6 witness. -/
def demoIssues : List Issue :=
  [{ description := "d1", code_snippet := "", severity := "P0" },
    { description := "d2", code_snippet := "", severity := "P2" }]

/-- Witness for C6: each fallback stage exercised at a concrete input. -/
theorem c6_witness :
    correlate "see Foo.swift" "" [demoLoc] = ("Src/Foo.swift", 7) ∧
      correlate "no file name here" "  let a = b!  " [demoLoc] = ("Src/Foo.swift", 7) ∧
      correlate "no file name here" "" [demoLoc] = ("Unknown", 0) ∧
      (structuredComments demoIssues []).length = 2 :=
  ⟨c6_correlator_fallback_chain.2.1 "see Foo.swift" "" [demoLoc] demoLoc (by decide),
    c6_correlator_fallback_chain.2.2.1 "no file name here" "  let a = b!  " [demoLoc]
      demoLoc (by decide) (by decide),
    c6_correlator_fallback_chain.2.2.2.1 "no file name here" "" [demoLoc]
      (by decide) (by decide),
    c6_correlator_fallback_chain.2.2.2.2 demoIssues []⟩

end BB
